import Mathlib

/-!
# pogrebstore: the blob-store adapter over a pogreb database

A shallow embedding of `pogrebstore.go`.  The adapter methods `Get` (`dbGet`),
`Put`, `Delete`, `List` and `Len` are transcribed over an engine interface that
stands for `*pogreb.DB`; the engine itself is a dependency and is taken as a
parameter.  Go's mutable database handle becomes an explicit engine state that
the writing operations return, and the callback of `List` is a state-passing
function, so that closures with their own state are covered.
-/

namespace Pogrebstore

/-! ## Data model -/

/-- A byte of a Go string or byte slice. -/
abbrev Byte := Fin 256

/-- A key: a Go `string`, that is a finite sequence of bytes. -/
abbrev Key := List Byte

/-- A blob: a Go `[]byte`. -/
abbrev Blob := List Byte

/-- Go's built-in `<` on strings: byte-wise lexicographic comparison, a proper
prefix being smaller. -/
def strLess : Key → Key → Bool
  | [], [] => false
  | [], _ :: _ => true
  | _ :: _, [] => false
  | a :: as, b :: bs =>
    if a < b then true else if b < a then false else strLess as bs

/-- The non-strict order on keys: `b` is not below `a`. -/
def keyLE (a b : Key) : Prop := strLess b a = false

/-- Error values seen by the adapter.  `keyNotFound` and `keyExists` are the
results of `blob.KeyNotFound(key)` and `blob.KeyExists(key)`, `stopListing` is
`blob.ErrStopListing`, `iterationDone` is `pogreb.ErrIterationDone`, `other`
is any further error value of the engine or of a callback, and `wrap` is an
error wrapping another one (as made by `fmt.Errorf` with `%w`). -/
inductive Error where
  | keyNotFound (key : Key)
  | keyExists (key : Key)
  | stopListing
  | iterationDone
  | other (code : Nat)
  | wrap (tag : Nat) (inner : Error)
  deriving DecidableEq, Repr

/-- Go's `errors.Is(err, target)`: `err` or an error in its unwrap chain is
`target`. -/
def errorsIs : Error → Error → Bool
  | .wrap t inner, target =>
    if Error.wrap t inner = target then true else errorsIs inner target
  | e, target => decide (e = target)

/-- The backing engine `*pogreb.DB` as used by the adapter, over a state type
`σ`.  `has`, `get`, `count` and `items` read the state; `put` and `delete`
return an optional error and the state they leave behind.  `items` is the
sequence of results that successive `it.Next()` calls give on a fresh
iterator; once the sequence is used up `Next` reports
`pogreb.ErrIterationDone`. -/
structure Engine (σ : Type) where
  has : σ → Key → Except Error Bool
  get : σ → Key → Except Error Blob
  put : σ → Key → Blob → Option Error × σ
  delete : σ → Key → Option Error × σ
  count : σ → Nat
  items : σ → List (Except Error (Key × Blob))

/-- The argument of `Put`: `blob.PutOptions`. -/
structure PutOptions where
  Key : Key
  Data : Blob
  Replace : Bool
  deriving DecidableEq, Repr

/-- The callback of `List`, `func(string) error`, with its own state `τ`:
`none` is a `nil` error. -/
abbrev Visit (τ : Type) := Key → τ → Option Error × τ

/-! ## The adapter -/

section Adapter

variable {σ : Type}

/-- The method `Store.dbGet`: existence check, then the engine's `Get`. -/
def Store.dbGet (db : Engine σ) (s : σ) (key : Key) : Except Error Blob :=
  match db.has s key with
  | .error err => .error err
  | .ok false => .error (.keyNotFound key)
  | .ok true => db.get s key

/-- The method `Store.Get`. -/
def Store.Get (db : Engine σ) (s : σ) (key : Key) : Except Error Blob :=
  Store.dbGet db s key

/-- The method `Store.Put`: existence check, `KeyExists` when the key is there and
`Replace` is off, otherwise the engine's `Put`. -/
def Store.Put (db : Engine σ) (s : σ) (opts : PutOptions) : Option Error × σ :=
  match db.has s opts.Key with
  | .error err => (some err, s)
  | .ok ok =>
    if ok && !opts.Replace then (some (.keyExists opts.Key), s)
    else db.put s opts.Key opts.Data

/-- The method `Store.Delete`: existence check, then the engine's `Delete`. -/
def Store.Delete (db : Engine σ) (s : σ) (key : Key) : Option Error × σ :=
  match db.has s key with
  | .error err => (some err, s)
  | .ok false => (some (.keyNotFound key), s)
  | .ok true => db.delete s key

/-- The scan loop of `Store.List`: drain the iterator, keeping the keys that
are not below `start`, in the order they arrive. -/
def scanKeys (start : Key) :
    List (Except Error (Key × Blob)) → List Key → Except Error (List Key)
  | [], keys => .ok keys
  | .error err :: _, keys =>
    if err = Error.iterationDone then .ok keys
    else .error err
  | .ok (key, _) :: rest, keys =>
    if strLess key start then scanKeys start rest keys
    else scanKeys start rest (keys ++ [key])

/-- Insertion of a key into an ascending list of keys. -/
def insertKey (k : Key) : List Key → List Key
  | [] => [k]
  | x :: xs => if strLess x k then x :: insertKey k xs else k :: x :: xs

/-- Go's `sort.Strings`: the keys in increasing order. -/
def sortStrings : List Key → List Key
  | [] => []
  | k :: ks => insertKey k (sortStrings ks)

/-- The delivery loop of `Store.List`: call `f` on each key in turn; a stop
signal ends the loop with success, any other error is returned. -/
def visitKeys {τ : Type} (f : Visit τ) : List Key → τ → Option Error × τ
  | [], t => (none, t)
  | key :: rest, t =>
    match f key t with
    | (none, t1) => visitKeys f rest t1
    | (some err, t1) =>
      if errorsIs err Error.stopListing then (none, t1) else (some err, t1)

/-- The method `Store.List`: scan, sort, deliver. -/
def Store.List {τ : Type} (db : Engine σ) (s : σ) (start : Key) (f : Visit τ) (t : τ) :
    Option Error × τ :=
  match scanKeys start (db.items s) [] with
  | .error err => (some err, t)
  | .ok keys => visitKeys f (sortStrings keys) t

/-- The method `Store.Len`: the engine's count (a `uint32`, widened to `int64`
without change of value) and a `nil` error. -/
def Store.Len (db : Engine σ) (s : σ) : Int × Option Error :=
  ((db.count s : Int), none)

end Adapter

/-- A callback instrumented with a log: each invocation appends the key it was
given to the log and otherwise behaves as `f`. -/
def traced {τ : Type} (f : Visit τ) : Visit (τ × List Key) :=
  fun key st => ((f key st.1).1, ((f key st.1).2, st.2 ++ [key]))

/-- The state of the callback after it has returned `nil` on every key of the
list in turn, `none` when one of the calls returns an error. -/
def accepts {τ : Type} (f : Visit τ) : List Key → τ → Option τ
  | [], t => some t
  | key :: rest, t =>
    match f key t with
    | (none, t1) => accepts f rest t1
    | (some _, _) => none

/-! ## A reference engine -/

/-- Modelled from the spec: the state of the backing engine (the pogreb
database, a dependency outside the sources), as the list of its records in
the order its iterator yields them. -/
abbrev MemDB := List (Key × Blob)

/-- Modelled from the spec: the engine's invariant that keys are unique, every
present key having one record. -/
def MemDB.WF (s : MemDB) : Prop := (s.map Prod.fst).Nodup

instance (s : MemDB) : Decidable s.WF := by unfold MemDB.WF; infer_instance

/-- Modelled from the spec: the engine's `has`, presence of a key among the
records. -/
def memHas (s : MemDB) (k : Key) : Bool := decide (k ∈ s.map Prod.fst)

/-- Modelled from the spec: the engine's `get`, the value stored under a key,
empty (`nil`) when there is none. -/
def memGet (s : MemDB) (k : Key) : Blob := (s.lookup k).getD []

/-- Modelled from the spec: the engine's `put`, which overwrites the record of
a present key in place, or adds a record. -/
def memPut (s : MemDB) (k : Key) (b : Blob) : MemDB :=
  if memHas s k then s.map (fun p => if p.1 = k then (k, b) else p)
  else s ++ [(k, b)]

/-- Modelled from the spec: the engine's `delete`, removal of the record of a
key. -/
def memDelete (s : MemDB) (k : Key) : MemDB := s.filter (fun p => p.1 ≠ k)

/-- Modelled from the spec: the backing engine facade of section 2 (a
dependency outside the sources), an engine that never fails: `has`, `get`,
`put` (create or overwrite), `delete`, `count` (number of records) and an
exhaustive iteration in the engine's own order. -/
def memEngine : Engine MemDB where
  has := fun s k => .ok (memHas s k)
  get := fun s k => .ok (memGet s k)
  put := fun s k b => (none, memPut s k b)
  delete := fun s k => (none, memDelete s k)
  count := fun s => s.length
  items := fun s => s.map Except.ok

/-- The set of keys present in an engine state. -/
def presentKeys (s : MemDB) : Finset Key := (s.map Prod.fst).toFinset

/-- An engine like `memEngine` whose existence check always fails with `e`. -/
def hasFailsEngine (e : Error) : Engine MemDB :=
  { memEngine with has := fun _ _ => .error e }

/-- The engine as one operation finds it: the reference engine, or, when a
fault is given, the engine whose existence check fails with it. -/
def engineFor : Option Error → Engine MemDB
  | none => memEngine
  | some e => hasFailsEngine e

/-- A writing operation on the store, with the fault (if any) that the
engine's existence check meets during it. -/
inductive Op where
  | put (opts : PutOptions) (fault : Option Error)
  | delete (key : Key) (fault : Option Error)
  deriving DecidableEq, Repr

/-- The engine state after one operation. -/
def applyOp (s : MemDB) : Op → MemDB
  | .put opts fault => (Store.Put (engineFor fault) s opts).2
  | .delete key fault => (Store.Delete (engineFor fault) s key).2

/-- The engine state after a sequence of operations. -/
def runOps (ops : List Op) (s : MemDB) : MemDB := ops.foldl applyOp s

/-- The keys of a list of records that are not below `start`. -/
def retained (start : Key) (s : MemDB) : List Key :=
  (s.map Prod.fst).filter (fun k => !strLess k start)

/-! ## Engines and inputs for the concrete instances -/

/-- Three records, in an order that is not the order of the keys. -/
def demoDB : MemDB := [([98], [1]), ([97], [2, 3]), ([99], [])]

/-- A callback that always returns `nil`. -/
def visitNil : Visit Unit := fun _ u => (none, u)

/-- A callback that signals stop on every call. -/
def visitStop : Visit Unit := fun _ u => (some Error.stopListing, u)

/-- A callback that counts its calls and fails on the key `b` with error 7. -/
def visitFailOnB : Visit Nat := fun key n =>
  if key = [98] then (some (Error.other 7), n + 1) else (none, n + 1)

/-- A sequence of operations on the keys `a` and `b`. -/
def demoOps : List Op :=
  [.put ⟨[97], [1], false⟩ none, .put ⟨[98], [2], false⟩ none,
   .put ⟨[97], [3], true⟩ none, .delete [98] (some (Error.other 3)), .delete [97] none]

/-- An engine like `memEngine` whose `put` and `delete` do their work and then
report the error `e` (as a write that is recorded and then fails to flush). -/
def writeThenFailEngine (e : Error) : Engine MemDB :=
  { memEngine with
    put := fun s k b => (some e, memPut s k b)
    delete := fun s k => (some e, memDelete s k) }

/-- An engine like `memEngine` whose iterator fails with `e` after the first
`n` records. -/
def scanFailsEngine (n : Nat) (e : Error) : Engine MemDB :=
  { memEngine with items := fun s => (s.take n).map Except.ok ++ [.error e] }

/-! ## The order on keys -/

theorem strLess_irrefl (a : Key) : strLess a a = false := by
  induction a with
  | nil => rfl
  | cons x xs ih => simp [strLess, ih]

theorem strLess_cons (x y : Byte) (xs ys : Key) :
    strLess (x :: xs) (y :: ys) = true ↔ x < y ∨ (x = y ∧ strLess xs ys = true) := by
  simp only [strLess]
  rcases lt_trichotomy x y with h | h | h
  · simp [h]
  · subst h; simp
  · simp [h, not_lt_of_gt h, ne_of_gt h]

theorem strLess_trans : ∀ (a b c : Key), strLess a b = true → strLess b c = true →
    strLess a c = true
  | [], [], _, h, _ => by simp [strLess] at h
  | [], _ :: _, [], _, h => by simp [strLess] at h
  | [], _ :: _, _ :: _, _, _ => by simp [strLess]
  | _ :: _, [], _, h, _ => by simp [strLess] at h
  | _ :: _, _ :: _, [], _, h => by simp [strLess] at h
  | x :: xs, y :: ys, z :: zs, h1, h2 => by
    rw [strLess_cons] at h1 h2 ⊢
    rcases h1 with h1 | ⟨rfl, h1⟩
    · rcases h2 with h2 | ⟨rfl, _⟩
      · exact Or.inl (lt_trans h1 h2)
      · exact Or.inl h1
    · rcases h2 with h2 | ⟨rfl, h2⟩
      · exact Or.inl h2
      · exact Or.inr ⟨rfl, strLess_trans xs ys zs h1 h2⟩

theorem strLess_connex : ∀ (a b : Key), strLess a b = false → strLess b a = false → a = b
  | [], [], _, _ => rfl
  | [], _ :: _, h, _ => by simp [strLess] at h
  | _ :: _, [], _, h => by simp [strLess] at h
  | x :: xs, y :: ys, h1, h2 => by
    have h1n : ¬ (strLess (x :: xs) (y :: ys) = true) := by simp [h1]
    have h2n : ¬ (strLess (y :: ys) (x :: xs) = true) := by simp [h2]
    rw [strLess_cons] at h1n h2n
    push_neg at h1n h2n
    have hxy : x = y := le_antisymm h2n.1 h1n.1
    subst hxy
    have e1 : strLess xs ys = false := by simpa using h1n.2 rfl
    have e2 : strLess ys xs = false := by simpa using h2n.2 rfl
    rw [strLess_connex xs ys e1 e2]

theorem strLess_asymm (a b : Key) (h : strLess a b = true) : strLess b a = false := by
  cases hba : strLess b a with
  | false => rfl
  | true =>
    have := strLess_trans a b a h hba
    rw [strLess_irrefl] at this
    exact absurd this (by decide)

/-- The empty string is below no key. -/
theorem strLess_nil (a : Key) : strLess a [] = false := by
  cases a <;> rfl

/-! ## Sorting -/

theorem insertKey_perm (k : Key) (l : List Key) : (insertKey k l).Perm (k :: l) := by
  induction l with
  | nil => exact List.Perm.refl _
  | cons x xs ih =>
    simp only [insertKey]
    split
    · exact ((List.Perm.cons x ih).trans (List.Perm.swap k x xs))
    · exact List.Perm.refl _

theorem sortStrings_perm (l : List Key) : (sortStrings l).Perm l := by
  induction l with
  | nil => exact List.Perm.refl _
  | cons k ks ih =>
    exact (insertKey_perm k (sortStrings ks)).trans (List.Perm.cons k ih)

theorem mem_sortStrings (k : Key) (l : List Key) : k ∈ sortStrings l ↔ k ∈ l :=
  (sortStrings_perm l).mem_iff

theorem keyLE_trans (a b c : Key) (h1 : keyLE a b) (h2 : keyLE b c) : keyLE a c := by
  unfold keyLE at *
  cases hca : strLess c a with
  | false => rfl
  | true =>
    cases hab : strLess a b with
    | true =>
      have := strLess_trans c a b hca hab
      rw [h2] at this
      exact absurd this (by decide)
    | false =>
      have hEq : a = b := strLess_connex a b hab h1
      subst hEq
      rw [h2] at hca
      exact absurd hca (by decide)

theorem insertKey_sorted (k : Key) (l : List Key) (h : l.Pairwise keyLE) :
    (insertKey k l).Pairwise keyLE := by
  induction l with
  | nil => simp [insertKey]
  | cons x xs ih =>
    rw [List.pairwise_cons] at h
    simp only [insertKey]
    split
    · rename_i hxk
      rw [List.pairwise_cons]
      refine ⟨?_, ih h.2⟩
      intro y hy
      rcases (List.mem_cons.mp ((insertKey_perm k xs).mem_iff.mp hy)) with rfl | hy
      · exact strLess_asymm _ _ hxk
      · exact h.1 y hy
    · rename_i hxk
      have hkx : keyLE k x := by
        unfold keyLE
        simpa using hxk
      rw [List.pairwise_cons]
      refine ⟨?_, List.pairwise_cons.mpr h⟩
      intro y hy
      rcases List.mem_cons.mp hy with rfl | hy
      · exact hkx
      · exact keyLE_trans _ _ _ hkx (h.1 y hy)

theorem sortStrings_sorted (l : List Key) : (sortStrings l).Pairwise keyLE := by
  induction l with
  | nil => simp [sortStrings]
  | cons k ks ih => exact insertKey_sorted k _ ih

/-- On a list without repetition the sorted list is strictly ascending. -/
theorem sortStrings_strict (l : List Key) (hnd : l.Nodup) :
    (sortStrings l).Pairwise (fun a b => strLess a b = true) := by
  have hnd2 : (sortStrings l).Nodup := (sortStrings_perm l).nodup_iff.mpr hnd
  have h := (sortStrings_sorted l).and hnd2
  refine h.imp ?_
  intro a b hab
  cases hlt : strLess a b with
  | true => rfl
  | false => exact absurd (strLess_connex a b hlt hab.1) hab.2

/-- The sorted list depends only on the keys, not on their order of arrival. -/
theorem sortStrings_eq_of_perm (l1 l2 : List Key) (h : l1.Perm l2) :
    sortStrings l1 = sortStrings l2 := by
  haveI : IsAntisymm Key keyLE := ⟨fun a b hab hba => strLess_connex a b hba hab⟩
  exact List.eq_of_perm_of_sorted
    (((sortStrings_perm l1).trans h).trans (sortStrings_perm l2).symm)
    (sortStrings_sorted l1) (sortStrings_sorted l2)

/-! ## The two loops of `List` -/

theorem scanKeys_records (start : Key) (s : MemDB) (acc : List Key) :
    scanKeys start (s.map Except.ok) acc = .ok (acc ++ retained start s) := by
  induction s generalizing acc with
  | nil => simp [scanKeys, retained]
  | cons p ps ih =>
    obtain ⟨k, b⟩ := p
    simp only [List.map_cons, scanKeys]
    by_cases hk : strLess k start = true
    · simp [hk, ih, retained]
    · simp only [hk]
      rw [if_neg (by simp), ih]
      simp [retained, hk]

/-- A scan that meets an error other than the end signal, after records only,
returns that error. -/
theorem scanKeys_fails (start : Key) (recs : MemDB) (e : Error)
    (rest : List (Except Error (Key × Blob))) (acc : List Key)
    (he : e ≠ Error.iterationDone) :
    scanKeys start (recs.map Except.ok ++ Except.error e :: rest) acc = .error e := by
  induction recs generalizing acc with
  | nil => simp [scanKeys, he]
  | cons p ps ih =>
    obtain ⟨k, b⟩ := p
    simp only [List.map_cons, List.cons_append, scanKeys]
    split <;> exact ih _

theorem visitKeys_traced_accepts {τ : Type} (f : Visit τ) (pre rest : List Key) (t t1 : τ)
    (log : List Key) (h : accepts f pre t = some t1) :
    visitKeys (traced f) (pre ++ rest) (t, log)
      = visitKeys (traced f) rest (t1, log ++ pre) := by
  induction pre generalizing t log with
  | nil =>
    simp only [accepts, Option.some.injEq] at h
    subst h
    simp
  | cons k ks ih =>
    simp only [accepts] at h
    cases hf : f k t with
    | mk r t2 =>
      rw [hf] at h
      cases r with
      | some e => simp at h
      | none =>
        simp only at h
        have hstep : visitKeys (traced f) (k :: (ks ++ rest)) (t, log)
            = visitKeys (traced f) (ks ++ rest) (t2, log ++ [k]) := by
          simp [visitKeys, traced, hf]
        rw [List.cons_append, hstep, ih t2 (log ++ [k]) h]
        simp

theorem accepts_of_never_fails {τ : Type} (f : Visit τ) (hf : ∀ k u, (f k u).1 = none)
    (keys : List Key) (t : τ) : ∃ t1, accepts f keys t = some t1 := by
  induction keys generalizing t with
  | nil => exact ⟨t, rfl⟩
  | cons k ks ih =>
    cases hfk : f k t with
    | mk r t2 =>
      have hr : r = none := by
        have := hf k t
        rw [hfk] at this
        exact this
      subst hr
      simp only [accepts, hfk]
      exact ih t2

/-- With a callback that never fails and never stops, every key is delivered. -/
theorem visitKeys_traced_all {τ : Type} (f : Visit τ) (hf : ∀ k u, (f k u).1 = none)
    (keys : List Key) (t : τ) :
    (visitKeys (traced f) keys (t, [])).1 = none ∧
      (visitKeys (traced f) keys (t, [])).2.2 = keys := by
  obtain ⟨t1, h1⟩ := accepts_of_never_fails f hf keys t
  have h := visitKeys_traced_accepts f keys [] t t1 [] h1
  simp only [List.append_nil, List.nil_append] at h
  rw [h]
  simp [visitKeys]

theorem mem_retained (start : Key) (s : MemDB) (k : Key) :
    k ∈ retained start s ↔ memHas s k = true ∧ strLess k start = false := by
  simp [retained, memHas]

/-! ## The reference engine -/

theorem lookup_overwrite (s : MemDB) (k : Key) (b : Blob) (h : k ∈ s.map Prod.fst) :
    (s.map (fun p => if p.1 = k then (k, b) else p)).lookup k = some b := by
  induction s with
  | nil => simp at h
  | cons p ps ih =>
    obtain ⟨a, v⟩ := p
    show List.lookup k ((if a = k then (k, b) else (a, v)) ::
      ps.map (fun p => if p.1 = k then (k, b) else p)) = some b
    by_cases hak : a = k
    · rw [if_pos hak]
      simp [List.lookup]
    · have hk : k ∈ ps.map Prod.fst := by
        simp only [List.map_cons, List.mem_cons] at h
        rcases h with h | h
        · exact absurd h.symm hak
        · exact h
      have hka : (k == a) = false := by simpa using fun h => hak h.symm
      rw [if_neg hak]
      simp only [List.lookup, hka]
      exact ih hk

theorem lookup_append_new (s : MemDB) (k : Key) (b : Blob) (h : k ∉ s.map Prod.fst) :
    (s ++ [(k, b)]).lookup k = some b := by
  induction s with
  | nil => simp [List.lookup]
  | cons p ps ih =>
    obtain ⟨a, v⟩ := p
    simp only [List.map_cons, List.mem_cons, not_or] at h
    have hka : (k == a) = false := by simpa using h.1
    simp only [List.cons_append, List.lookup, hka]
    exact ih h.2

theorem memGet_memPut (s : MemDB) (k : Key) (b : Blob) : memGet (memPut s k b) k = b := by
  unfold memGet memPut
  by_cases h : memHas s k = true
  · rw [if_pos h, lookup_overwrite s k b (by simpa [memHas] using h)]
    rfl
  · rw [if_neg h, lookup_append_new s k b (by simpa [memHas] using h)]
    rfl

theorem keys_overwrite (s : MemDB) (k : Key) (b : Blob) :
    (s.map (fun p => if p.1 = k then (k, b) else p)).map Prod.fst = s.map Prod.fst := by
  induction s with
  | nil => rfl
  | cons p ps ih =>
    simp only [List.map_cons, ih]
    by_cases hp : p.1 = k
    · simp [hp]
    · simp [hp]

theorem memHas_memPut (s : MemDB) (k : Key) (b : Blob) : memHas (memPut s k b) k = true := by
  unfold memPut
  by_cases h : memHas s k = true
  · rw [if_pos h]
    unfold memHas at *
    rw [keys_overwrite]
    exact h
  · rw [if_neg h]
    simp [memHas]

theorem wf_memPut (s : MemDB) (k : Key) (b : Blob) (h : s.WF) : (memPut s k b).WF := by
  unfold memPut MemDB.WF at *
  by_cases hk : memHas s k = true
  · rw [if_pos hk, keys_overwrite]
    exact h
  · rw [if_neg hk]
    have hnot : k ∉ s.map Prod.fst := by simpa [memHas] using hk
    rw [List.map_append, List.nodup_append]
    refine ⟨h, by simp, ?_⟩
    intro a ha hb
    simp only [List.map_cons, List.map_nil, List.mem_singleton] at hb
    exact hnot (hb ▸ ha)

theorem wf_memDelete (s : MemDB) (k : Key) (h : s.WF) : (memDelete s k).WF := by
  unfold memDelete MemDB.WF at *
  exact h.sublist ((List.filter_sublist s).map Prod.fst)

theorem memHas_memDelete (s : MemDB) (k : Key) : memHas (memDelete s k) k = false := by
  simp [memHas, memDelete]

theorem length_memPut_present (s : MemDB) (k : Key) (b : Blob) (h : memHas s k = true) :
    (memPut s k b).length = s.length := by
  simp [memPut, h]

theorem length_memPut_absent (s : MemDB) (k : Key) (b : Blob) (h : memHas s k = false) :
    (memPut s k b).length = s.length + 1 := by
  simp [memPut, h]

theorem memDelete_absent (s : MemDB) (k : Key) (h : k ∉ s.map Prod.fst) :
    memDelete s k = s := by
  unfold memDelete
  rw [List.filter_eq_self]
  intro p hp
  have : p.1 ≠ k := fun hpk => h (hpk ▸ List.mem_map_of_mem Prod.fst hp)
  simpa using this

theorem length_memDelete (s : MemDB) (k : Key) (hwf : s.WF) (h : memHas s k = true) :
    (memDelete s k).length + 1 = s.length := by
  induction s with
  | nil => simp [memHas] at h
  | cons p ps ih =>
    obtain ⟨a, v⟩ := p
    have hwf2 : (a ∉ ps.map Prod.fst) ∧ MemDB.WF ps := by
      unfold MemDB.WF at hwf ⊢
      simpa using hwf
    by_cases hak : a = k
    · subst hak
      have htail : memDelete ps a = ps := memDelete_absent ps a hwf2.1
      have hstep : memDelete ((a, v) :: ps) a = memDelete ps a := by
        simp [memDelete]
      rw [hstep, htail]
      rfl
    · have hk : memHas ps k = true := by
        simp only [memHas, List.map_cons, List.mem_cons, decide_eq_true_eq] at h ⊢
        rcases h with h | h
        · exact absurd h.symm hak
        · exact h
      have hstep : memDelete ((a, v) :: ps) k = (a, v) :: memDelete ps k := by
        simp [memDelete, hak]
      rw [hstep, List.length_cons, ih hwf2.2 hk, List.length_cons]

/-- An operation whose existence check fails leaves the engine state alone. -/
theorem fault_keeps_state (s : MemDB) (e : Error) (opts : PutOptions) (key : Key) :
    Store.Put (hasFailsEngine e) s opts = (some e, s) ∧
    Store.Delete (hasFailsEngine e) s key = (some e, s) := by
  simp [Store.Put, Store.Delete, hasFailsEngine]

theorem wf_applyOp (s : MemDB) (op : Op) (h : s.WF) : (applyOp s op).WF := by
  cases op with
  | put opts fault =>
    cases fault with
    | some e =>
      simp only [applyOp, engineFor, (fault_keeps_state s e opts []).1]
      exact h
    | none =>
      simp only [applyOp, engineFor, Store.Put, memEngine]
      split
      · exact h
      · exact wf_memPut s _ _ h
  | delete key fault =>
    cases fault with
    | some e =>
      simp only [applyOp, engineFor, (fault_keeps_state s e ⟨[], [], false⟩ key).2]
      exact h
    | none =>
      simp only [applyOp, engineFor, Store.Delete, memEngine]
      cases memHas s key with
      | false => exact h
      | true => exact wf_memDelete s key h

theorem wf_runOps (ops : List Op) (s : MemDB) (h : s.WF) : (runOps ops s).WF := by
  induction ops generalizing s with
  | nil => exact h
  | cons op ops ih => exact ih (applyOp s op) (wf_applyOp s op h)

theorem card_presentKeys (s : MemDB) (h : s.WF) : (presentKeys s).card = s.length := by
  unfold presentKeys
  rw [List.toFinset_card_of_nodup h, List.length_map]

theorem mem_presentKeys (s : MemDB) (k : Key) : k ∈ presentKeys s ↔ memHas s k = true := by
  simp [presentKeys, memHas]

/-! ## Ordered enumeration -/

/-- C1: for every engine state whose iterator yields, without failing, one
record for each present key, for every start key and every callback that
never stops and never fails, `List` succeeds, and the keys given to the
callback are strictly ascending, are exactly the present keys that are not
below `start`, each one exactly once (so with the empty start key every
present key is visited), and are the same for every order in which an engine
yields the records. -/
theorem list_visits_present_keys_ascending {σ τ : Type} (db : Engine σ) (s : σ)
    (recs : MemDB) (hitems : db.items s = recs.map Except.ok) (hwf : recs.WF)
    (hhas : ∀ k, db.has s k = .ok true ↔ k ∈ recs.map Prod.fst)
    (start : Key) (f : Visit τ) (t : τ) (hf : ∀ k u, (f k u).1 = none) :
    (Store.List db s start (traced f) (t, [])).1 = none ∧
    (Store.List db s start (traced f) (t, [])).2.2.Pairwise
      (fun a b => strLess a b = true) ∧
    (∀ k, k ∈ (Store.List db s start (traced f) (t, [])).2.2 ↔
      (db.has s k = .ok true ∧ strLess k start = false)) ∧
    (Store.List db s start (traced f) (t, [])).2.2.Nodup ∧
    (∀ k, strLess k start = true →
      k ∉ (Store.List db s start (traced f) (t, [])).2.2) ∧
    (start = [] → ∀ k, db.has s k = .ok true →
      k ∈ (Store.List db s start (traced f) (t, [])).2.2) ∧
    (∀ (db2 : Engine σ) (s2 : σ) (recs2 : MemDB),
      db2.items s2 = recs2.map Except.ok → recs2.Perm recs →
      (Store.List db2 s2 start (traced f) (t, [])).2.2
        = (Store.List db s start (traced f) (t, [])).2.2) := by
  have hlist : ∀ (d : Engine σ) (x : σ) (r : MemDB), d.items x = r.map Except.ok →
      Store.List d x start (traced f) (t, [])
        = visitKeys (traced f) (sortStrings (retained start r)) (t, []) := by
    intro d x r hr
    simp [Store.List, hr, scanKeys_records]
  have hnd : (retained start recs).Nodup := List.Nodup.filter _ hwf
  have hmem : ∀ k, k ∈ sortStrings (retained start recs) ↔
      (db.has s k = .ok true ∧ strLess k start = false) := by
    intro k
    rw [mem_sortStrings, mem_retained, hhas k]
    simp [memHas]
  have hall := visitKeys_traced_all f hf (sortStrings (retained start recs)) t
  rw [hlist db s recs hitems, hall.2]
  refine ⟨hall.1, sortStrings_strict _ hnd, hmem,
    (sortStrings_perm _).nodup_iff.mpr hnd, ?_, ?_, ?_⟩
  · intro k hk hin
    rw [((hmem k).mp hin).2] at hk
    exact absurd hk (by decide)
  · intro hstart k hk
    exact (hmem k).mpr ⟨hk, by rw [hstart]; exact strLess_nil k⟩
  · intro db2 s2 recs2 hitems2 hperm
    rw [hlist db2 s2 recs2 hitems2,
      (visitKeys_traced_all f hf (sortStrings (retained start recs2)) t).2]
    exact sortStrings_eq_of_perm _ _ ((hperm.map Prod.fst).filter _)

/-- C1 at the reference engine on `demoDB` with start key `b`. -/
theorem list_visits_present_keys_ascending_witness :
    memEngine.items demoDB = demoDB.map Except.ok ∧ demoDB.WF ∧
    (∀ k, memEngine.has demoDB k = .ok true ↔ k ∈ demoDB.map Prod.fst) ∧
    (∀ k u, (visitNil k u).1 = none) ∧
    (Store.List memEngine demoDB [98] (traced visitNil) ((), [])).1 = none ∧
    (Store.List memEngine demoDB [98] (traced visitNil) ((), [])).2.2.Pairwise
      (fun a b => strLess a b = true) :=
  ⟨rfl, by decide, fun k => by simp [memEngine, memHas], fun _ _ => rfl,
    (list_visits_present_keys_ascending memEngine demoDB demoDB rfl (by decide)
      (fun k => by simp [memEngine, memHas]) [98] visitNil () (fun _ _ => rfl)).1,
    (list_visits_present_keys_ascending memEngine demoDB demoDB rfl (by decide)
      (fun k => by simp [memEngine, memHas]) [98] visitNil () (fun _ _ => rfl)).2.1⟩

/-- C2: whatever the engine and its state, when the scan succeeds and the
callback signals stop on its first call (the call on the smallest retained
key `k`), `List` returns success and the callback has been called exactly
once, on `k`; none of the remaining keys `rest` is visited. -/
theorem list_stop_on_first_call {σ τ : Type} (db : Engine σ) (s : σ) (start : Key)
    (f : Visit τ) (t t1 : τ) (keys rest : List Key) (k : Key) (e : Error)
    (hscan : scanKeys start (db.items s) [] = .ok keys)
    (hsort : sortStrings keys = k :: rest)
    (hf : f k t = (some e, t1))
    (hstop : errorsIs e Error.stopListing = true) :
    Store.List db s start (traced f) (t, []) = (none, (t1, [k])) := by
  simp [Store.List, hscan, hsort, visitKeys, traced, hf, hstop]

/-- C2 at `demoDB`: three keys, one call. -/
theorem list_stop_on_first_call_witness :
    scanKeys [] (memEngine.items demoDB) [] = .ok [[98], [97], [99]] ∧
    sortStrings [[98], [97], [99]] = [97] :: [[98], [99]] ∧
    visitStop [97] () = (some Error.stopListing, ()) ∧
    errorsIs Error.stopListing Error.stopListing = true ∧
    Store.List memEngine demoDB [] (traced visitStop) ((), []) = (none, ((), [[97]])) :=
  ⟨rfl, by decide, rfl, by decide,
    list_stop_on_first_call memEngine demoDB [] visitStop () () [[98], [97], [99]]
      [[98], [99]] [97] Error.stopListing rfl (by decide) rfl (by decide)⟩

/-- C3: whatever the engine and its state, when the scan succeeds, the
callback returns `nil` on the sorted keys `pre` and then, on the next key `k`,
an error `e` that is not the stop signal, `List` returns exactly `e`, and the
keys visited are `pre` followed by `k`; none of the later keys `post` is
visited. -/
theorem list_returns_callback_error {σ τ : Type} (db : Engine σ) (s : σ) (start : Key)
    (f : Visit τ) (t t1 t2 : τ) (keys pre post : List Key) (k : Key) (e : Error)
    (hscan : scanKeys start (db.items s) [] = .ok keys)
    (hsort : sortStrings keys = pre ++ k :: post)
    (hpre : accepts f pre t = some t1)
    (hf : f k t1 = (some e, t2))
    (he : errorsIs e Error.stopListing = false) :
    Store.List db s start (traced f) (t, []) = (some e, (t2, pre ++ [k])) := by
  simp only [Store.List, hscan, hsort]
  rw [visitKeys_traced_accepts f pre (k :: post) t t1 [] hpre]
  simp [visitKeys, traced, hf, he]

/-- C3 at `demoDB`: the callback fails on the second of three keys. -/
theorem list_returns_callback_error_witness :
    scanKeys [] (memEngine.items demoDB) [] = .ok [[98], [97], [99]] ∧
    sortStrings [[98], [97], [99]] = [[97]] ++ [98] :: [[99]] ∧
    accepts visitFailOnB [[97]] 0 = some 1 ∧
    visitFailOnB [98] 1 = (some (Error.other 7), 2) ∧
    errorsIs (Error.other 7) Error.stopListing = false ∧
    Store.List memEngine demoDB [] (traced visitFailOnB) (0, [])
      = (some (Error.other 7), (2, [[97], [98]])) :=
  ⟨rfl, by decide, by decide, by decide, by decide,
    list_returns_callback_error memEngine demoDB [] visitFailOnB 0 1 2 [[98], [97], [99]]
      [[97]] [[99]] [98] (Error.other 7) rfl (by decide) (by decide) (by decide)
      (by decide)⟩

/-- C10: whatever the engine and its state, when the iterator yields some
records and then fails with an error `e` other than the end signal, `List`
returns exactly `e` and leaves the state of the callback as it was: the
callback has not been called, and its log of visited keys is empty. -/
theorem list_scan_failure_before_any_visit {σ τ : Type} (db : Engine σ) (s : σ) (start : Key)
    (f : Visit τ) (t : τ) (recs : MemDB) (e : Error)
    (rest : List (Except Error (Key × Blob)))
    (hitems : db.items s = recs.map Except.ok ++ Except.error e :: rest)
    (he : e ≠ Error.iterationDone) :
    Store.List db s start f t = (some e, t) ∧
    Store.List db s start (traced f) (t, []) = (some e, (t, [])) := by
  simp [Store.List, hitems, scanKeys_fails start recs e rest [] he]

/-- C10 at an engine that fails after two of the three records of `demoDB`. -/
theorem list_scan_failure_before_any_visit_witness :
    (scanFailsEngine 2 (Error.other 5)).items demoDB
      = (demoDB.take 2).map Except.ok ++ Except.error (Error.other 5) :: [] ∧
    Error.other 5 ≠ Error.iterationDone ∧
    Store.List (scanFailsEngine 2 (Error.other 5)) demoDB [] visitNil () =
      (some (Error.other 5), ()) ∧
    Store.List (scanFailsEngine 2 (Error.other 5)) demoDB [] (traced visitNil) ((), []) =
      (some (Error.other 5), ((), [])) :=
  ⟨rfl, by decide,
    list_scan_failure_before_any_visit (scanFailsEngine 2 (Error.other 5)) demoDB []
      visitNil () (demoDB.take 2) (Error.other 5) [] rfl (by decide)⟩

/-! ## Point operations -/

/-- C4: whatever the engine and its state, when the existence check reports
the key absent, `Get` fails with `NotFound(key)` and `Delete` fails with
`NotFound(key)`, leaving the state as it was. -/
theorem get_delete_absent_not_found {σ : Type} (db : Engine σ) (s : σ) (k : Key)
    (h : db.has s k = .ok false) :
    Store.Get db s k = .error (Error.keyNotFound k) ∧
    Store.Delete db s k = (some (Error.keyNotFound k), s) := by
  simp [Store.Get, Store.dbGet, Store.Delete, h]

/-- C4 at `demoDB` and the absent key `d`. -/
theorem get_delete_absent_not_found_witness :
    memEngine.has demoDB [100] = .ok false ∧
    Store.Get memEngine demoDB [100] = .error (Error.keyNotFound [100]) ∧
    Store.Delete memEngine demoDB [100] = (some (Error.keyNotFound [100]), demoDB) :=
  ⟨rfl, get_delete_absent_not_found memEngine demoDB [100] rfl⟩

/-- C5: whatever the engine and its state, when the key is present with value
`b`, `Put` without `Replace` fails with `AlreadyExists(key)` and the state it
leaves is the state it found: `Get` on it still returns `b` and `Len` is the
same. -/
theorem put_existing_without_replace {σ : Type} (db : Engine σ) (s : σ) (k : Key)
    (b b2 : Blob) (h : db.has s k = .ok true) (hget : db.get s k = .ok b) :
    Store.Put db s ⟨k, b2, false⟩ = (some (Error.keyExists k), s) ∧
    Store.Get db (Store.Put db s ⟨k, b2, false⟩).2 k = .ok b ∧
    Store.Len db (Store.Put db s ⟨k, b2, false⟩).2 = Store.Len db s := by
  have hput : Store.Put db s ⟨k, b2, false⟩ = (some (Error.keyExists k), s) := by
    simp [Store.Put, h]
  rw [hput]
  simp [Store.Get, Store.dbGet, h, hget]

/-- C5 at `demoDB` and its key `a`. -/
theorem put_existing_without_replace_witness :
    memEngine.has demoDB [97] = .ok true ∧ memEngine.get demoDB [97] = .ok [2, 3] ∧
    Store.Put memEngine demoDB ⟨[97], [9], false⟩ = (some (Error.keyExists [97]), demoDB) ∧
    Store.Get memEngine (Store.Put memEngine demoDB ⟨[97], [9], false⟩).2 [97] = .ok [2, 3] ∧
    Store.Len memEngine (Store.Put memEngine demoDB ⟨[97], [9], false⟩).2
      = Store.Len memEngine demoDB :=
  ⟨rfl, rfl, put_existing_without_replace memEngine demoDB [97] [2, 3] [9] rfl rfl⟩

/-- C6: on the reference engine, for every state, key and blob, `Put` with
`Replace` succeeds whether or not the key is present, `Put` without `Replace`
succeeds when the key is absent, and in both cases `Get` on the state left by
`Put` returns exactly the blob written. -/
theorem put_get_round_trip (s : MemDB) (k : Key) (b : Blob) :
    (Store.Put memEngine s ⟨k, b, true⟩).1 = none ∧
    Store.Get memEngine (Store.Put memEngine s ⟨k, b, true⟩).2 k = .ok b ∧
    (memEngine.has s k = .ok false →
      (Store.Put memEngine s ⟨k, b, false⟩).1 = none ∧
      Store.Get memEngine (Store.Put memEngine s ⟨k, b, false⟩).2 k = .ok b) := by
  have hput : ∀ r, (r = true ∨ memHas s k = false) →
      Store.Put memEngine s ⟨k, b, r⟩ = (none, memPut s k b) := by
    intro r hr
    rcases hr with hr | hr <;> simp [Store.Put, memEngine, hr]
  have hget : Store.Get memEngine (memPut s k b) k = .ok b := by
    simp [Store.Get, Store.dbGet, memEngine, memHas_memPut, memGet_memPut]
  refine ⟨by rw [hput true (Or.inl rfl)], by rw [hput true (Or.inl rfl)]; exact hget, ?_⟩
  intro habs
  have hk : memHas s k = false := by simpa [memEngine] using habs
  rw [hput false (Or.inr hk)]
  exact ⟨rfl, hget⟩

/-- C6 at `demoDB`: overwriting the present key `a`. -/
theorem put_get_round_trip_witness :
    (Store.Put memEngine demoDB ⟨[97], [9], true⟩).1 = none ∧
    Store.Get memEngine (Store.Put memEngine demoDB ⟨[97], [9], true⟩).2 [97] = .ok [9] :=
  ⟨(put_get_round_trip demoDB [97] [9]).1, (put_get_round_trip demoDB [97] [9]).2.1⟩

/-- C7: on the reference engine, for every well-formed state, after a `Put`
that succeeded, `Delete` of the same key succeeds, `Get` then fails with
`NotFound(key)`, and `Len` after the `Delete` is exactly one less than `Len`
before it. -/
theorem put_delete_get_len (s : MemDB) (hwf : s.WF) (opts : PutOptions)
    (hput : (Store.Put memEngine s opts).1 = none) :
    (Store.Delete memEngine (Store.Put memEngine s opts).2 opts.Key).1 = none ∧
    Store.Get memEngine
      (Store.Delete memEngine (Store.Put memEngine s opts).2 opts.Key).2 opts.Key
        = .error (Error.keyNotFound opts.Key) ∧
    (Store.Len memEngine
      (Store.Delete memEngine (Store.Put memEngine s opts).2 opts.Key).2).1
        = (Store.Len memEngine (Store.Put memEngine s opts).2).1 - 1 ∧
    (Store.Len memEngine
      (Store.Delete memEngine (Store.Put memEngine s opts).2 opts.Key).2).2 = none := by
  have hs1 : (Store.Put memEngine s opts).2 = memPut s opts.Key opts.Data := by
    simp only [Store.Put, memEngine] at hput ⊢
    split at hput
    · simp at hput
    · rename_i hc
      rw [if_neg hc]
  rw [hs1]
  have hdel : Store.Delete memEngine (memPut s opts.Key opts.Data) opts.Key
      = (none, memDelete (memPut s opts.Key opts.Data) opts.Key) := by
    simp [Store.Delete, memEngine, memHas_memPut]
  rw [hdel]
  have hlen := length_memDelete (memPut s opts.Key opts.Data) opts.Key
    (wf_memPut s _ _ hwf) (memHas_memPut s _ _)
  refine ⟨rfl, ?_, ?_, rfl⟩
  · simp [Store.Get, Store.dbGet, memEngine, memHas_memDelete]
  · simp only [Store.Len, memEngine]
    omega

/-- C7 at `demoDB`, putting and deleting the new key `d`. -/
theorem put_delete_get_len_witness :
    demoDB.WF ∧ (Store.Put memEngine demoDB ⟨[100], [4], false⟩).1 = none ∧
    (Store.Delete memEngine (Store.Put memEngine demoDB ⟨[100], [4], false⟩).2 [100]).1
      = none ∧
    Store.Get memEngine
      (Store.Delete memEngine (Store.Put memEngine demoDB ⟨[100], [4], false⟩).2 [100]).2
      [100] = .error (Error.keyNotFound [100]) :=
  ⟨by decide, by decide,
    (put_delete_get_len demoDB (by decide) ⟨[100], [4], false⟩ (by decide)).1,
    (put_delete_get_len demoDB (by decide) ⟨[100], [4], false⟩ (by decide)).2.1⟩

/-- C9: whatever the engine and its state, when the existence check fails with
an error `e`, each of `Get`, `Put` and `Delete` returns exactly `e`, and `Put`
and `Delete` leave the state as it was; this holds whatever the engine's own
`get`, `put` and `delete` would do, so none of them takes part. -/
theorem has_error_is_returned {σ : Type} (db : Engine σ) (s : σ) (k : Key) (e : Error)
    (h : db.has s k = .error e)
    (g : σ → Key → Except Error Blob) (p : σ → Key → Blob → Option Error × σ)
    (d : σ → Key → Option Error × σ) :
    Store.Get db s k = .error e ∧
    (∀ b r, Store.Put db s ⟨k, b, r⟩ = (some e, s)) ∧
    Store.Delete db s k = (some e, s) ∧
    Store.Get { db with get := g, put := p, delete := d } s k = .error e ∧
    (∀ b r, Store.Put { db with get := g, put := p, delete := d } s ⟨k, b, r⟩
      = (some e, s)) ∧
    Store.Delete { db with get := g, put := p, delete := d } s k = (some e, s) := by
  simp [Store.Get, Store.dbGet, Store.Put, Store.Delete, h]

/-- C9 at an engine whose existence check fails with error 3. -/
theorem has_error_is_returned_witness :
    (hasFailsEngine (Error.other 3)).has demoDB [97] = .error (Error.other 3) ∧
    Store.Get (hasFailsEngine (Error.other 3)) demoDB [97] = .error (Error.other 3) ∧
    Store.Delete (hasFailsEngine (Error.other 3)) demoDB [97]
      = (some (Error.other 3), demoDB) :=
  ⟨rfl,
    (has_error_is_returned (hasFailsEngine (Error.other 3)) demoDB [97] (Error.other 3) rfl
      memEngine.get memEngine.put memEngine.delete).1,
    (has_error_is_returned (hasFailsEngine (Error.other 3)) demoDB [97] (Error.other 3) rfl
      memEngine.get memEngine.put memEngine.delete).2.2.1⟩

/-- C8, as the claim states it, fails: on the empty store, with an engine whose
`put` records the key and then reports an error, `Put` fails and `Len` goes
from 0 to 1; and after a `Put` that succeeded, with an engine whose `delete`
removes the key and then reports an error, `Delete` fails and `Len` goes from
1 to 0. -/
theorem failed_write_changes_len :
    (Store.Put (writeThenFailEngine (Error.other 1)) [] ⟨[97], [1], false⟩).1
      = some (Error.other 1) ∧
    Store.Len (writeThenFailEngine (Error.other 1)) [] = (0, none) ∧
    Store.Len (writeThenFailEngine (Error.other 1))
      (Store.Put (writeThenFailEngine (Error.other 1)) [] ⟨[97], [1], false⟩).2
      = (1, none) ∧
    Store.Len (writeThenFailEngine (Error.other 1))
      (Store.Put (writeThenFailEngine (Error.other 1)) [] ⟨[97], [1], false⟩).2
      ≠ Store.Len (writeThenFailEngine (Error.other 1)) [] ∧
    (Store.Delete (writeThenFailEngine (Error.other 1))
      (Store.Put memEngine [] ⟨[97], [1], false⟩).2 [97]).1 = some (Error.other 1) ∧
    Store.Len memEngine (Store.Put memEngine [] ⟨[97], [1], false⟩).2 = (1, none) ∧
    Store.Len memEngine
      (Store.Delete (writeThenFailEngine (Error.other 1))
        (Store.Put memEngine [] ⟨[97], [1], false⟩).2 [97]).2 = (0, none) := by
  decide

/-- C8, amended.  For every engine: `Len` returns the engine's count and a
`nil` error; a `Put` or `Delete` that fails in the existence check, with
`AlreadyExists` or with `NotFound` leaves `Len` as it was; and every other
failed `Put` or `Delete` is the engine's own `put` or `delete` failing, whose
result is returned as it is.  On the reference engine, in the state reached
from the empty store by any sequence of `Put` and `Delete` operations (some of
which may meet a failing existence check): `Len` is the number of distinct
keys present, a `Put` on an absent key succeeds and raises `Len` by one, a
`Put` with `Replace` on a present key succeeds and leaves `Len` as it was, a
`Delete` succeeds exactly on a present key and then lowers `Len` by one, and a
failed `Put` or `Delete` leaves `Len` as it was. -/
theorem len_counts_distinct_keys {σ : Type} (db : Engine σ) (x : σ) (ops : List Op) :
    Store.Len db x = ((db.count x : Int), none) ∧
    (∀ opts e, db.has x opts.Key = .error e →
      (Store.Put db x opts).1 = some e ∧
      Store.Len db (Store.Put db x opts).2 = Store.Len db x) ∧
    (∀ opts, db.has x opts.Key = .ok true → opts.Replace = false →
      (Store.Put db x opts).1 = some (Error.keyExists opts.Key) ∧
      Store.Len db (Store.Put db x opts).2 = Store.Len db x) ∧
    (∀ k e, db.has x k = .error e →
      (Store.Delete db x k).1 = some e ∧
      Store.Len db (Store.Delete db x k).2 = Store.Len db x) ∧
    (∀ k, db.has x k = .ok false →
      (Store.Delete db x k).1 = some (Error.keyNotFound k) ∧
      Store.Len db (Store.Delete db x k).2 = Store.Len db x) ∧
    (∀ opts, (Store.Put db x opts).1 ≠ none →
      Store.Len db (Store.Put db x opts).2 = Store.Len db x ∨
      Store.Put db x opts = db.put x opts.Key opts.Data) ∧
    (∀ k, (Store.Delete db x k).1 ≠ none →
      Store.Len db (Store.Delete db x k).2 = Store.Len db x ∨
      Store.Delete db x k = db.delete x k) ∧
    (∀ k, k ∈ presentKeys (runOps ops []) ↔ memEngine.has (runOps ops []) k = .ok true) ∧
    Store.Len memEngine (runOps ops [])
      = (((presentKeys (runOps ops [])).card : Int), none) ∧
    (∀ k b r, memEngine.has (runOps ops []) k = .ok false →
      (Store.Put memEngine (runOps ops []) ⟨k, b, r⟩).1 = none ∧
      (Store.Len memEngine (Store.Put memEngine (runOps ops []) ⟨k, b, r⟩).2).1
        = (Store.Len memEngine (runOps ops [])).1 + 1) ∧
    (∀ k b, memEngine.has (runOps ops []) k = .ok true →
      (Store.Put memEngine (runOps ops []) ⟨k, b, true⟩).1 = none ∧
      Store.Len memEngine (Store.Put memEngine (runOps ops []) ⟨k, b, true⟩).2
        = Store.Len memEngine (runOps ops [])) ∧
    (∀ k, memEngine.has (runOps ops []) k = .ok true →
      (Store.Delete memEngine (runOps ops []) k).1 = none ∧
      (Store.Len memEngine (Store.Delete memEngine (runOps ops []) k).2).1
        = (Store.Len memEngine (runOps ops [])).1 - 1) ∧
    (∀ k, (Store.Delete memEngine (runOps ops []) k).1 = none →
      memEngine.has (runOps ops []) k = .ok true ∧
      (Store.Len memEngine (Store.Delete memEngine (runOps ops []) k).2).1
        = (Store.Len memEngine (runOps ops [])).1 - 1) ∧
    (∀ opts fault, (Store.Put (engineFor fault) (runOps ops []) opts).1 ≠ none →
      Store.Len memEngine (Store.Put (engineFor fault) (runOps ops []) opts).2
        = Store.Len memEngine (runOps ops [])) ∧
    (∀ k fault, (Store.Delete (engineFor fault) (runOps ops []) k).1 ≠ none →
      Store.Len memEngine (Store.Delete (engineFor fault) (runOps ops []) k).2
        = Store.Len memEngine (runOps ops [])) := by
  have hwf : (runOps ops []).WF := wf_runOps ops [] (by simp [MemDB.WF])
  generalize runOps ops [] = s at hwf ⊢
  have hdelete : ∀ k, memHas s k = true →
      (Store.Delete memEngine s k).1 = none ∧
      (Store.Len memEngine (Store.Delete memEngine s k).2).1
        = (Store.Len memEngine s).1 - 1 := by
    intro k hk
    have hd : Store.Delete memEngine s k = (none, memDelete s k) := by
      simp [Store.Delete, memEngine, hk]
    rw [hd]
    have hlen := length_memDelete s k hwf hk
    refine ⟨rfl, ?_⟩
    simp only [Store.Len, memEngine]
    omega
  refine ⟨rfl, ?_, ?_, ?_, ?_, ?_, ?_, ?_, ?_, ?_, ?_, ?_, ?_, ?_, ?_⟩
  · intro opts e h
    simp [Store.Put, h]
  · intro opts h hr
    simp [Store.Put, h, hr]
  · intro k e h
    simp [Store.Delete, h]
  · intro k h
    simp [Store.Delete, h]
  · intro opts _
    cases h : db.has x opts.Key with
    | error e => exact Or.inl (by simp [Store.Put, h])
    | ok present =>
      by_cases hc : (present && !opts.Replace) = true
      · exact Or.inl (by simp [Store.Put, h, hc])
      · exact Or.inr (by simp only [Store.Put, h, if_neg hc])
  · intro k _
    cases h : db.has x k with
    | error e => exact Or.inl (by simp [Store.Delete, h])
    | ok present =>
      cases present with
      | false => exact Or.inl (by simp [Store.Delete, h])
      | true => exact Or.inr (by simp [Store.Delete, h])
  · intro k
    rw [mem_presentKeys]
    simp [memEngine]
  · simp only [Store.Len, memEngine, card_presentKeys s hwf]
  · intro k b r habs
    have hk : memHas s k = false := by simpa [memEngine] using habs
    have hput : Store.Put memEngine s ⟨k, b, r⟩ = (none, memPut s k b) := by
      simp [Store.Put, memEngine, hk]
    rw [hput]
    refine ⟨rfl, ?_⟩
    simp only [Store.Len, memEngine, length_memPut_absent s k b hk]
    push_cast
    rfl
  · intro k b hpres
    have hk : memHas s k = true := by simpa [memEngine] using hpres
    have hput : Store.Put memEngine s ⟨k, b, true⟩ = (none, memPut s k b) := by
      simp [Store.Put, memEngine]
    rw [hput]
    refine ⟨rfl, ?_⟩
    simp only [Store.Len, memEngine, length_memPut_present s k b hk]
  · intro k hpres
    exact hdelete k (by simpa [memEngine] using hpres)
  · intro k hdel
    have hk : memHas s k = true := by
      cases hh : memHas s k with
      | true => rfl
      | false => simp [Store.Delete, memEngine, hh] at hdel
    exact ⟨by simp [memEngine, hk], (hdelete k hk).2⟩
  · intro opts fault hfail
    have hs : (Store.Put (engineFor fault) s opts).2 = s := by
      cases fault with
      | some e => simp only [engineFor, (fault_keeps_state s e opts []).1]
      | none =>
        simp only [engineFor, Store.Put, memEngine] at hfail ⊢
        split
        · rfl
        · rename_i hc
          rw [if_neg hc] at hfail
          exact absurd rfl hfail
    rw [hs]
  · intro k fault hfail
    have hs : (Store.Delete (engineFor fault) s k).2 = s := by
      cases fault with
      | some e => simp only [engineFor, (fault_keeps_state s e ⟨[], [], false⟩ k).2]
      | none =>
        simp only [engineFor, Store.Delete, memEngine] at hfail ⊢
        cases hh : memHas s k with
        | false => rfl
        | true =>
          rw [hh] at hfail
          exact absurd rfl hfail
    rw [hs]

/-- C8, amended, after five operations (two creations, an overwrite, a `Delete`
whose existence check fails, and a `Delete` that succeeds): one key is left,
`Len` is 1, and deleting that key succeeds and brings `Len` to 0. -/
theorem len_counts_distinct_keys_witness :
    runOps demoOps [] = [([98], [2])] ∧
    (presentKeys (runOps demoOps [])).card = 1 ∧
    Store.Len memEngine (runOps demoOps []) = (1, none) ∧
    Store.Len memEngine (runOps demoOps [])
      = (((presentKeys (runOps demoOps [])).card : Int), none) ∧
    memEngine.has (runOps demoOps []) [98] = .ok true ∧
    (Store.Delete memEngine (runOps demoOps []) [98]).1 = none ∧
    (Store.Len memEngine (Store.Delete memEngine (runOps demoOps []) [98]).2).1
      = (Store.Len memEngine (runOps demoOps [])).1 - 1 ∧
    (Store.Len memEngine (Store.Delete memEngine (runOps demoOps []) [98]).2).1 = 0 :=
  ⟨by decide, by decide, by decide,
    (len_counts_distinct_keys memEngine demoDB demoOps).2.2.2.2.2.2.2.2.1, rfl,
    ((len_counts_distinct_keys memEngine demoDB demoOps).2.2.2.2.2.2.2.2.2.2.2.1 [98] rfl).1,
    ((len_counts_distinct_keys memEngine demoDB demoOps).2.2.2.2.2.2.2.2.2.2.2.1 [98] rfl).2,
    by decide⟩

end Pogrebstore
